import Mathlib

/-!
Verification of the multi-section resume form core: field validators,
section models (education/experience), the persistence adapter, the form
orchestrator, and the GitHub repository tag aggregation.

The JavaScript source is embedded shallowly: strings are Lean `String`s
(manipulated through their underlying `List Char`), JS regular expressions
become explicit character-list scanners with the same left-to-right
leftmost-match semantics, JS objects used as string-keyed error maps become
association lists, `JSON.parse` (which may throw) becomes an
`Option`-returning parameter, and `Date.now()` becomes an explicit `Nat`
clock argument.  JS string trimming and lowercasing are modelled on the
ASCII subset (space, tab, CR, LF; letters A-Z), which covers every string
the form code produces or compares.
-/

namespace ResumeGen

/-! ## Character-level helpers -/

/-- Whitespace recognized by the embedded trim and by the regex class used in
the GPA pattern (ASCII subset of JS whitespace). -/
def isSpaceJS (c : Char) : Bool :=
  c = ' ' || c = '\t' || c = '\n' || c = '\r'

/-- Trim whitespace from both ends of a character list (model of
`String.prototype.trim`). -/
def trimL (l : List Char) : List Char :=
  ((l.dropWhile isSpaceJS).reverse.dropWhile isSpaceJS).reverse

/-- Model of `s.trim()`. -/
def jsTrim (s : String) : String :=
  String.mk (trimL s.data)

/-- Model of `s.toLowerCase()` (ASCII letters). -/
def jsToLower (s : String) : String :=
  String.mk (s.data.map Char.toLower)

/-- JS truthiness of a string: every string except `""` is truthy. -/
def strTruthy (s : String) : Bool := s ≠ ""

/-- JS truthiness of a nullable string (`null`/`undefined` and `""` are
falsy). -/
def optTruthy : Option String → Bool
  | none => false
  | some s => s ≠ ""

theorem char_eq_iff_toNat {a b : Char} : a = b ↔ a.toNat = b.toNat := by
  constructor
  · intro h; rw [h]
  · intro h; exact Char.eq_of_val_eq (UInt32.ext h)

theorem char_isDigit_iff {c : Char} :
    c.isDigit = true ↔ 48 ≤ c.toNat ∧ c.toNat ≤ 57 := by
  simp only [Char.isDigit, Bool.and_eq_true, decide_eq_true_eq]
  constructor
  · intro ⟨h1, h2⟩
    exact ⟨h1, h2⟩
  · intro ⟨h1, h2⟩
    exact ⟨h1, h2⟩

theorem char_le_iff_toNat {a b : Char} : a ≤ b ↔ a.toNat ≤ b.toNat :=
  Iff.rfl

/-! ## Field validators (`src/types/resumeTypes.js`) -/

/-- Anchored character-level rendering of the date regex
`/^\d{4}-(0[1-9]|1[0-2])$/`: four digits, a dash, then either `0` followed
by `[1-9]` or `1` followed by `[0-2]`. -/
def validDateShape : List Char → Bool
  | [y1, y2, y3, y4, dash, m1, m2] =>
    y1.isDigit && y2.isDigit && y3.isDigit && y4.isDigit && dash = '-' &&
      ((m1 = '0' && ('1' ≤ m2 && m2 ≤ '9')) ||
       (m1 = '1' && ('0' ≤ m2 && m2 ≤ '2')))
  | _ => false

/-- `validateDate` from the source: the literal `'Present'` (case-sensitive)
or a string matching `/^\d{4}-(0[1-9]|1[0-2])$/`. -/
def validateDate (date : String) : Bool :=
  date = "Present" || validDateShape date.data

/-- Declarative description of the `YYYY-MM` grammar: four decimal digits, a
dash, and a two-digit month whose numeric value lies in `1..12`. -/
def DateShapeSpec (s : String) : Prop :=
  ∃ y1 y2 y3 y4 m1 m2 : Char,
    s.data = [y1, y2, y3, y4, '-', m1, m2] ∧
    y1.isDigit = true ∧ y2.isDigit = true ∧ y3.isDigit = true ∧
    y4.isDigit = true ∧ m1.isDigit = true ∧ m2.isDigit = true ∧
    1 ≤ 10 * (m1.toNat - 48) + (m2.toNat - 48) ∧
    10 * (m1.toNat - 48) + (m2.toNat - 48) ≤ 12

theorem validDateShape_iff (l : List Char) :
    validDateShape l = true ↔
      ∃ y1 y2 y3 y4 m1 m2 : Char,
        l = [y1, y2, y3, y4, '-', m1, m2] ∧
        y1.isDigit = true ∧ y2.isDigit = true ∧ y3.isDigit = true ∧
        y4.isDigit = true ∧ m1.isDigit = true ∧ m2.isDigit = true ∧
        1 ≤ 10 * (m1.toNat - 48) + (m2.toNat - 48) ∧
        10 * (m1.toNat - 48) + (m2.toNat - 48) ≤ 12 := by
  have e0 : ('0').toNat = 48 := rfl
  have e1 : ('1').toNat = 49 := rfl
  have e2 : ('2').toNat = 50 := rfl
  have e9 : ('9').toNat = 57 := rfl
  constructor
  · intro h
    unfold validDateShape at h
    split at h
    case h_1 y1 y2 y3 y4 dash m1 m2 =>
      simp only [Bool.and_eq_true, Bool.or_eq_true, decide_eq_true_eq] at h
      obtain ⟨⟨⟨⟨⟨hy1, hy2⟩, hy3⟩, hy4⟩, hdash⟩, hmonth⟩ := h
      subst hdash
      have hm : (m1.toNat = 48 ∧ 49 ≤ m2.toNat ∧ m2.toNat ≤ 57) ∨
          (m1.toNat = 49 ∧ 48 ≤ m2.toNat ∧ m2.toNat ≤ 50) := by
        rcases hmonth with ⟨h1, h2, h3⟩ | ⟨h1, h2, h3⟩ <;>
          rw [char_eq_iff_toNat] at h1 <;>
          rw [char_le_iff_toNat] at h2 h3 <;>
          [left; right] <;> rw [e0, e1, e2, e9] at * <;> omega
      refine ⟨y1, y2, y3, y4, m1, m2, rfl, hy1, hy2, hy3, hy4, ?_, ?_, ?_, ?_⟩
      · rw [char_isDigit_iff]; omega
      · rw [char_isDigit_iff]; omega
      · omega
      · omega
    case h_2 => exact absurd h (by simp)
  · rintro ⟨y1, y2, y3, y4, m1, m2, rfl, hy1, hy2, hy3, hy4, hm1, hm2, hlo, hhi⟩
    simp only [validDateShape, Bool.and_eq_true, Bool.or_eq_true,
      decide_eq_true_eq]
    rw [char_isDigit_iff] at hm1 hm2
    refine ⟨⟨⟨⟨⟨hy1, hy2⟩, hy3⟩, hy4⟩, trivial⟩, ?_⟩
    by_cases h0 : m1.toNat = 48
    · left
      refine ⟨char_eq_iff_toNat.mpr (by rw [h0, e0]), ?_, ?_⟩
      · rw [char_le_iff_toNat, e1]; omega
      · rw [char_le_iff_toNat, e9]; omega
    · right
      have h1 : m1.toNat = 49 := by omega
      refine ⟨char_eq_iff_toNat.mpr (by rw [h1, e1]), ?_, ?_⟩
      · rw [char_le_iff_toNat, e0]; omega
      · rw [char_le_iff_toNat, e2]; omega

/-- Claim C1 (counterexample): the field-level date validator does not accept
the lowercase literal `"present"`; the literal it accepts is `"Present"`
(capital `P`).  Under the claim, `validateDate "present"` would have to be
`true` and `validateDate "Present"` would have to be `false`; the code does
the opposite. -/
theorem C1_counterexample :
    validateDate "present" = false ∧ validateDate "Present" = true := by
  constructor <;> rfl

/-- Claim C1 (amended): the field-level date validator accepts exactly the
strings that are either the literal `"Present"` (capital `P`,
case-sensitive) or of the shape `YYYY-MM` with month in `01..12`; every
other string (including month `00` or `13`, or any non-matching shape) is
rejected. -/
theorem C1_date_validator_amended (s : String) :
    validateDate s = true ↔ s = "Present" ∨ DateShapeSpec s := by
  unfold validateDate DateShapeSpec
  rw [Bool.or_eq_true, decide_eq_true_eq, validDateShape_iff]

/-! ## Sanitizers (`sanitizeString`, `sanitizeDescription`)

`sanitizeString` applies two global regex replacements and a trim:
first `/<script\b[^<]*(?:(?!<\/script>)<[^<]*)*<\/script>/gi` (script-block
removal), then `/<[^>]+>/g` (tag removal).  The scanners below implement the
same leftmost, non-overlapping match semantics; determinism is justified
because `</script>` can only start at a `<` and every `<` reachable by
backtracking has already failed the `</script>` test, and because the tag
body class `[^>]+` always ends at the first `>` after the opening `<`. -/

/-- Scan for the first `>`; return the remainder after it. -/
def scanGt : List Char → Option (List Char)
  | [] => none
  | c :: rest => if c = '>' then some rest else scanGt rest

/-- Given the text following a `<`, return the remainder after a `[^>]+>`
match, or `none` when the `<` does not open a complete tag. -/
def afterTag : List Char → Option (List Char)
  | [] => none
  | c :: rest => if c = '>' then none else scanGt rest

theorem scanGt_length {l r : List Char} (h : scanGt l = some r) :
    r.length < l.length := by
  induction l with
  | nil => simp [scanGt] at h
  | cons c rest ih =>
    rw [scanGt] at h
    split at h
    · simp at h
      subst h
      simp
    · exact Nat.lt_succ_of_lt (ih h)

theorem afterTag_length {l r : List Char} (h : afterTag l = some r) :
    r.length < l.length := by
  cases l with
  | nil => simp [afterTag] at h
  | cons c rest =>
    rw [afterTag] at h
    split at h
    · simp at h
    · exact Nat.lt_succ_of_lt (scanGt_length h)

/-- One global pass of the tag-removal replacement `/<[^>]+>/g`. -/
def stripTagsL : List Char → List Char
  | [] => []
  | c :: rest =>
    if c = '<' then
      match h : afterTag rest with
      | some rest2 => stripTagsL rest2
      | none => '<' :: stripTagsL rest
    else c :: stripTagsL rest
termination_by l => l.length
decreasing_by
  · exact Nat.lt_succ_of_lt (afterTag_length h)
  · simp
  · simp

/-- Case-insensitive literal match (the `i` flag); returns the remainder. -/
def matchCI : List Char → List Char → Option (List Char)
  | [], l => some l
  | _ :: _, [] => none
  | p :: ps, c :: cs => if c.toLower = p then matchCI ps cs else none

/-- Skip `[^<]*`: drop characters up to (not including) the next `<`. -/
def takeNonLt : List Char → List Char
  | [] => []
  | c :: cs => if c = '<' then c :: cs else takeNonLt cs

theorem matchCI_length {ps l r : List Char} (h : matchCI ps l = some r) :
    r.length + ps.length = l.length := by
  induction ps generalizing l with
  | nil =>
    simp [matchCI] at h
    subst h
    simp
  | cons p ps ih =>
    cases l with
    | nil => simp [matchCI] at h
    | cons c cs =>
      rw [matchCI] at h
      split at h
      · have := ih h
        simp only [List.length_cons]
        omega
      · simp at h

theorem takeNonLt_length (l : List Char) : (takeNonLt l).length ≤ l.length := by
  induction l with
  | nil => simp [takeNonLt]
  | cons c cs ih =>
    rw [takeNonLt]
    split
    · simp
    · exact Nat.le_succ_of_le ih

/-- The loop `(?:(?!<\/script>)<[^<]*)*<\/script>`, entered at a `<` (or at
the end of input): chunks of `<[^<]*` are consumed until a `<` that starts
`</script>` (case-insensitively) is found; its remainder is returned. -/
def scriptChunks : List Char → Option (List Char)
  | [] => none
  | c :: cs =>
    if c = '<' then
      match matchCI ['/', 's', 'c', 'r', 'i', 'p', 't', '>'] cs with
      | some r => some r
      | none => scriptChunks (takeNonLt cs)
    else none
termination_by l => l.length
decreasing_by
  · simp only [List.length_cons]
    exact Nat.lt_succ_of_le (takeNonLt_length _)

theorem scriptChunks_length {l r : List Char} (h : scriptChunks l = some r) :
    r.length < l.length := by
  induction l using scriptChunks.induct generalizing r with
  | case1 => simp [scriptChunks] at h
  | case2 cs r2 hm =>
    rw [scriptChunks, if_pos rfl, hm] at h
    simp at h
    subst h
    have h1 := matchCI_length hm
    simp only [List.length_cons] at h1 ⊢
    omega
  | case3 cs hm ih =>
    rw [scriptChunks, if_pos rfl, hm] at h
    have h1 := ih h
    have h2 := takeNonLt_length cs
    simp only [List.length_cons]
    omega
  | case4 c cs hc =>
    rw [scriptChunks, if_neg hc] at h
    simp at h

/-- Attempt the whole script-block regex at the current position:
`<script` (case-insensitive), a word boundary, `[^<]*`, then the chunk
loop ending at `</script>`. -/
def isWordChar (c : Char) : Bool := c.isAlphanum || c = '_'

def scriptMatchAt (l : List Char) : Option (List Char) :=
  match matchCI ['<', 's', 'c', 'r', 'i', 'p', 't'] l with
  | none => none
  | some [] => none
  | some (c :: r) =>
    if isWordChar c then none else scriptChunks (takeNonLt (c :: r))

theorem scriptMatchAt_length {l r : List Char} (h : scriptMatchAt l = some r) :
    r.length < l.length := by
  unfold scriptMatchAt at h
  split at h
  · simp at h
  · simp at h
  · rename_i c r2 hm
    split at h
    · simp at h
    · have h1 := matchCI_length hm
      have h2 := scriptChunks_length h
      have h3 := takeNonLt_length (c :: r2)
      simp only [List.length_cons] at h1 h2 h3 ⊢
      omega

/-- One global pass of the script-block replacement. -/
def stripScriptsL : List Char → List Char
  | [] => []
  | c :: cs =>
    match h : scriptMatchAt (c :: cs) with
    | some r => stripScriptsL r
    | none => c :: stripScriptsL cs
termination_by l => l.length
decreasing_by
  · exact scriptMatchAt_length h
  · simp

/-- `sanitizeString` from the source: empty-guard, script-block removal, tag
removal, trim. -/
def sanitizeString (input : String) : String :=
  if input = "" then ""
  else String.mk (trimL (stripTagsL (stripScriptsL input.data)))

/-- `sanitizeDescription` from the source: empty-guard, script-block removal
only, trim. -/
def sanitizeDescription (input : String) : String :=
  if input = "" then ""
  else String.mk (trimL (stripScriptsL input.data))

/-! ## Tag-freeness of the strict sanitizer -/

/-- A complete markup tag occurs somewhere: a `<`, one or more non-`>`
characters, then `>`. -/
def HasTag (l : List Char) : Prop :=
  ∃ pre mid post, l = pre ++ '<' :: (mid ++ '>' :: post) ∧ mid ≠ [] ∧ '>' ∉ mid

theorem not_hasTag_nil : ¬ HasTag [] := by
  rintro ⟨pre, mid, post, h, _, _⟩
  simp at h

theorem hasTag_append {m : List Char} (a b : List Char) (h : HasTag m) :
    HasTag (a ++ m ++ b) := by
  obtain ⟨pre, mid, post, rfl, hne, hni⟩ := h
  exact ⟨a ++ pre, mid, post ++ b, by simp, hne, hni⟩

theorem hasTag_cons {c : Char} {t : List Char} (h : HasTag t) : HasTag (c :: t) := by
  obtain ⟨pre, mid, post, rfl, hne, hni⟩ := h
  exact ⟨c :: pre, mid, post, rfl, hne, hni⟩

theorem hasTag_of_suffix {t l : List Char} (h : t <:+ l) (ht : HasTag t) :
    HasTag l := by
  obtain ⟨a, rfl⟩ := h
  have := hasTag_append a [] ht
  simpa using this

theorem hasTag_append_left {m : List Char} (a : List Char) (h : HasTag m) :
    HasTag (a ++ m) := by
  have := hasTag_append a [] h
  simpa using this

theorem scanGt_none_iff {l : List Char} : scanGt l = none ↔ '>' ∉ l := by
  induction l with
  | nil => simp [scanGt]
  | cons c rest ih =>
    rw [scanGt]
    split
    · rename_i hc
      subst hc
      simp
    · rename_i hc
      simp [ih, hc, Ne.symm hc]

theorem scanGt_some_iff {l r : List Char} :
    scanGt l = some r ↔ ∃ mid, l = mid ++ '>' :: r ∧ '>' ∉ mid := by
  induction l generalizing r with
  | nil =>
    simp only [scanGt]
    constructor
    · intro h; simp at h
    · rintro ⟨mid, h, _⟩; simp at h
  | cons c rest ih =>
    rw [scanGt]
    split
    · rename_i hc
      subst hc
      constructor
      · intro h
        simp at h
        exact ⟨[], by rw [h]; rfl, by simp⟩
      · rintro ⟨mid, heq, hni⟩
        cases mid with
        | nil => simp at heq; simp [heq]
        | cons m mid2 =>
          exfalso
          simp at heq
          obtain ⟨hm, _⟩ := heq
          exact hni (List.mem_cons.mpr (Or.inl hm))
    · rename_i hc
      rw [ih]
      constructor
      · rintro ⟨mid, heq, hni⟩
        refine ⟨c :: mid, by simp [heq], ?_⟩
        simp [hni, Ne.symm hc]
      · rintro ⟨mid, heq, hni⟩
        cases mid with
        | nil =>
          exfalso
          simp at heq
          exact hc heq.1
        | cons m mid2 =>
          simp at heq
          obtain ⟨hm, heq2⟩ := heq
          refine ⟨mid2, heq2, fun hmem => hni ?_⟩
          simp [hmem]

theorem afterTag_some_iff {l r : List Char} :
    afterTag l = some r ↔
      ∃ mid, l = mid ++ '>' :: r ∧ mid ≠ [] ∧ '>' ∉ mid := by
  cases l with
  | nil =>
    simp only [afterTag]
    constructor
    · intro h; simp at h
    · rintro ⟨mid, h, _, _⟩; simp at h
  | cons c rest =>
    rw [afterTag]
    split
    · rename_i hc
      subst hc
      constructor
      · intro h; simp at h
      · rintro ⟨mid, heq, hne, hni⟩
        exfalso
        cases mid with
        | nil => exact hne rfl
        | cons m mid2 =>
          simp at heq
          exact hni (List.mem_cons.mpr (Or.inl heq.1))
    · rename_i hc
      rw [scanGt_some_iff]
      constructor
      · rintro ⟨mid, heq, hni⟩
        refine ⟨c :: mid, by simp [heq], by simp, ?_⟩
        simp [hni, Ne.symm hc]
      · rintro ⟨mid, heq, hne, hni⟩
        cases mid with
        | nil => exact absurd rfl hne
        | cons m mid2 =>
          simp at heq
          refine ⟨mid2, heq.2, fun hmem => hni ?_⟩
          simp [hmem]

theorem hasTag_cons_iff {c : Char} {t : List Char} :
    HasTag (c :: t) ↔ (c = '<' ∧ ∃ r, afterTag t = some r) ∨ HasTag t := by
  constructor
  · rintro ⟨pre, mid, post, heq, hne, hni⟩
    cases pre with
    | nil =>
      simp at heq
      left
      exact ⟨heq.1, post, afterTag_some_iff.mpr ⟨mid, heq.2, hne, hni⟩⟩
    | cons p pre2 =>
      simp at heq
      exact Or.inr ⟨pre2, mid, post, heq.2, hne, hni⟩
  · rintro (⟨rfl, r, har⟩ | ht)
    · obtain ⟨mid, heq, hne, hni⟩ := afterTag_some_iff.mp har
      exact ⟨[], mid, r, by simp [heq], hne, hni⟩
    · exact hasTag_cons ht

theorem stripTagsL_nil : stripTagsL [] = [] := by
  rw [stripTagsL]

theorem stripTagsL_cons_lt_some {rest rest2 : List Char}
    (hm : afterTag rest = some rest2) :
    stripTagsL ('<' :: rest) = stripTagsL rest2 := by
  rw [stripTagsL, if_pos rfl]
  split
  · rename_i x hx
    rw [hm] at hx
    injection hx with hx
    rw [hx]
  · rename_i hx
    rw [hm] at hx
    exact absurd hx (by simp)

theorem stripTagsL_cons_lt_none {rest : List Char} (hm : afterTag rest = none) :
    stripTagsL ('<' :: rest) = '<' :: stripTagsL rest := by
  rw [stripTagsL, if_pos rfl]
  split
  · rename_i x hx
    rw [hm] at hx
    exact absurd hx (by simp)
  · rfl

theorem stripTagsL_cons_ne {c : Char} {rest : List Char} (hc : ¬ c = '<') :
    stripTagsL (c :: rest) = c :: stripTagsL rest := by
  rw [stripTagsL, if_neg hc]

theorem stripTagsL_sublist (l : List Char) : List.Sublist (stripTagsL l) l := by
  induction l using stripTagsL.induct with
  | case1 => rw [stripTagsL_nil]
  | case2 rest rest2 hm ih =>
    rw [stripTagsL_cons_lt_some hm]
    obtain ⟨mid, heq, _, _⟩ := afterTag_some_iff.mp hm
    have h1 : List.Sublist rest2 rest := by
      rw [heq]
      exact List.Sublist.trans (List.sublist_cons_self '>' rest2)
        (List.sublist_append_right mid ('>' :: rest2))
    exact List.Sublist.cons '<' (List.Sublist.trans ih h1)
  | case3 rest hm ih =>
    rw [stripTagsL_cons_lt_none hm]
    exact List.Sublist.cons₂ '<' ih
  | case4 c rest hc ih =>
    rw [stripTagsL_cons_ne hc]
    exact List.Sublist.cons₂ c ih

theorem not_hasTag_stripTagsL (l : List Char) : ¬ HasTag (stripTagsL l) := by
  induction l using stripTagsL.induct with
  | case1 => rw [stripTagsL_nil]; exact not_hasTag_nil
  | case2 rest rest2 hm ih => rw [stripTagsL_cons_lt_some hm]; exact ih
  | case3 rest hm ih =>
    rw [stripTagsL_cons_lt_none hm]
    intro htag
    rcases hasTag_cons_iff.mp htag with ⟨_, r, har⟩ | ht
    · obtain ⟨mid, heq, hne, hni⟩ := afterTag_some_iff.mp har
      cases rest with
      | nil =>
        rw [stripTagsL_nil] at heq
        exact absurd heq.symm (by simp)
      | cons c2 r2 =>
        rw [afterTag] at hm
        split at hm
        · rename_i hc2
          subst hc2
          rw [stripTagsL_cons_ne (by decide)] at heq
          cases mid with
          | nil => exact hne rfl
          | cons m mid2 =>
            simp at heq
            exact hni (List.mem_cons.mpr (Or.inl heq.1))
        · rename_i hc2
          have hngt : '>' ∉ (c2 :: r2) := by
            intro hmem
            rcases List.mem_cons.mp hmem with h | h
            · exact hc2 h.symm
            · exact (scanGt_none_iff.mp hm) h
          have hmem : '>' ∈ stripTagsL (c2 :: r2) := by
            rw [heq]
            simp
          exact hngt (List.Sublist.mem hmem (stripTagsL_sublist _))
    · exact ih ht
  | case4 c rest hc ih =>
    rw [stripTagsL_cons_ne hc]
    intro htag
    rcases hasTag_cons_iff.mp htag with ⟨hceq, _⟩ | ht
    · exact hc hceq
    · exact ih ht

theorem stripTagsL_id_of_noTag {l : List Char} (h : ¬ HasTag l) :
    stripTagsL l = l := by
  induction l using stripTagsL.induct with
  | case1 => exact stripTagsL_nil
  | case2 rest rest2 hm ih =>
    exact absurd (hasTag_cons_iff.mpr (Or.inl ⟨rfl, rest2, hm⟩)) h
  | case3 rest hm ih =>
    rw [stripTagsL_cons_lt_none hm, ih (fun ht => h (hasTag_cons ht))]
  | case4 c rest hc ih =>
    rw [stripTagsL_cons_ne hc, ih (fun ht => h (hasTag_cons ht))]

theorem matchCI_some {ps l r : List Char} (h : matchCI ps l = some r) :
    ∃ ds, l = ds ++ r ∧ List.Forall₂ (fun p d => d.toLower = p) ps ds := by
  induction ps generalizing l with
  | nil =>
    simp [matchCI] at h
    exact ⟨[], by simp [h], List.Forall₂.nil⟩
  | cons p ps ih =>
    cases l with
    | nil => simp [matchCI] at h
    | cons c cs =>
      rw [matchCI] at h
      split at h
      · rename_i hcl
        obtain ⟨ds, heq, hf⟩ := ih h
        exact ⟨c :: ds, by simp [heq], List.Forall₂.cons hcl hf⟩
      · simp at h

theorem char_ofNat_lower_ne_gt {n : Nat} (h1 : 97 ≤ n) (h2 : n ≤ 122) :
    Char.ofNat n ≠ '>' := by
  interval_cases n <;> decide

theorem toLower_eq_gt {c : Char} (h : c.toLower = '>') : c = '>' := by
  simp only [Char.toLower] at h
  split at h
  · rename_i hr
    exact absurd h (char_ofNat_lower_ne_gt (by omega) (by omega))
  · exact h

theorem ne_gt_of_toLower {c p : Char} (h : c.toLower = p) (hp : p ≠ '>') :
    c ≠ '>' := by
  intro hc
  subst hc
  exact hp (h.symm.trans (by decide))

theorem takeNonLt_suffix (l : List Char) : takeNonLt l <:+ l := by
  induction l with
  | nil => exact List.suffix_rfl
  | cons c cs ih =>
    rw [takeNonLt]
    split
    · exact List.suffix_rfl
    · exact List.IsSuffix.trans ih (List.suffix_cons c cs)

theorem scriptChunks_hasTag {l r : List Char} (h : scriptChunks l = some r) :
    HasTag l := by
  induction l using scriptChunks.induct with
  | case1 => simp [scriptChunks] at h
  | case2 cs r2 hm =>
    obtain ⟨ds, heq, hf⟩ := matchCI_some hm
    cases hf with | @cons _ d0 _ ds0 h0 hf =>
    cases hf with | @cons _ d1 _ ds1 h1 hf =>
    cases hf with | @cons _ d2 _ ds2 h2 hf =>
    cases hf with | @cons _ d3 _ ds3 h3 hf =>
    cases hf with | @cons _ d4 _ ds4 h4 hf =>
    cases hf with | @cons _ d5 _ ds5 h5 hf =>
    cases hf with | @cons _ d6 _ ds6 h6 hf =>
    cases hf with | @cons _ d7 _ ds7 h7 hf =>
    cases hf with | nil =>
    have hd7 : d7 = '>' := toLower_eq_gt h7
    refine ⟨[], [d0, d1, d2, d3, d4, d5, d6], r2, ?_, by simp, ?_⟩
    · rw [heq, hd7]
      simp
    · intro hmem
      simp only [List.mem_cons, List.not_mem_nil, or_false] at hmem
      rcases hmem with h | h | h | h | h | h | h <;> subst h
      · exact ne_gt_of_toLower h0 (by decide) rfl
      · exact ne_gt_of_toLower h1 (by decide) rfl
      · exact ne_gt_of_toLower h2 (by decide) rfl
      · exact ne_gt_of_toLower h3 (by decide) rfl
      · exact ne_gt_of_toLower h4 (by decide) rfl
      · exact ne_gt_of_toLower h5 (by decide) rfl
      · exact ne_gt_of_toLower h6 (by decide) rfl
  | case3 cs hm ih =>
    rw [scriptChunks, if_pos rfl, hm] at h
    exact hasTag_cons (hasTag_of_suffix (takeNonLt_suffix cs) (ih h))
  | case4 c cs hc =>
    rw [scriptChunks, if_neg hc] at h
    simp at h

theorem scriptMatchAt_hasTag {l r : List Char} (h : scriptMatchAt l = some r) :
    HasTag l := by
  unfold scriptMatchAt at h
  split at h
  · simp at h
  · simp at h
  · rename_i c r2 hm
    split at h
    · simp at h
    · obtain ⟨ds, heq, _⟩ := matchCI_some hm
      rw [heq]
      exact hasTag_append_left ds
        (hasTag_of_suffix (takeNonLt_suffix (c :: r2)) (scriptChunks_hasTag h))

theorem stripScriptsL_nil : stripScriptsL [] = [] := by
  rw [stripScriptsL]

theorem stripScriptsL_cons_some {c : Char} {cs r : List Char}
    (hm : scriptMatchAt (c :: cs) = some r) :
    stripScriptsL (c :: cs) = stripScriptsL r := by
  rw [stripScriptsL]
  split
  · rename_i x hx
    rw [hm] at hx
    injection hx with hx
    rw [hx]
  · rename_i hx
    rw [hm] at hx
    exact absurd hx (by simp)

theorem stripScriptsL_cons_none {c : Char} {cs : List Char}
    (hm : scriptMatchAt (c :: cs) = none) :
    stripScriptsL (c :: cs) = c :: stripScriptsL cs := by
  rw [stripScriptsL]
  split
  · rename_i x hx
    rw [hm] at hx
    exact absurd hx (by simp)
  · rfl

theorem stripScriptsL_id_of_noTag {l : List Char} (h : ¬ HasTag l) :
    stripScriptsL l = l := by
  induction l using stripScriptsL.induct with
  | case1 => exact stripScriptsL_nil
  | case2 c cs r hm ih =>
    exact absurd (scriptMatchAt_hasTag hm) h
  | case3 c cs hm ih =>
    rw [stripScriptsL_cons_none hm, ih (fun ht => h (hasTag_cons ht))]

theorem head?_dropWhile_false {p : Char → Bool} {l : List Char} {c : Char}
    (h : (l.dropWhile p).head? = some c) : p c = false := by
  induction l with
  | nil => simp [List.dropWhile] at h
  | cons a t ih =>
    rw [List.dropWhile_cons] at h
    split at h
    · exact ih h
    · rename_i hpa
      simp at h
      subst h
      simpa using hpa

theorem dropWhile_eq_self_of_head {p : Char → Bool} {l : List Char}
    (h : ∀ c, l.head? = some c → p c = false) : l.dropWhile p = l := by
  cases l with
  | nil => rfl
  | cons a t =>
    rw [List.dropWhile_cons, h a rfl]
    simp

theorem trimL_head_not_space {l : List Char} {c : Char}
    (h : (trimL l).head? = some c) : isSpaceJS c = false := by
  unfold trimL at h
  rw [List.head?_reverse] at h
  have hne : ((l.dropWhile isSpaceJS).reverse).dropWhile isSpaceJS ≠ [] := by
    intro heq
    rw [heq] at h
    simp at h
  obtain ⟨a, ha⟩ :=
    List.dropWhile_suffix (l := (l.dropWhile isSpaceJS).reverse) isSpaceJS
  have hgl : ((l.dropWhile isSpaceJS).reverse).getLast?
      = (((l.dropWhile isSpaceJS).reverse).dropWhile isSpaceJS).getLast? := by
    conv_lhs => rw [← ha]
    exact List.getLast?_append_of_ne_nil a hne
  rw [← hgl, List.getLast?_reverse] at h
  exact head?_dropWhile_false h

theorem trimL_getLast_not_space {l : List Char} {c : Char}
    (h : (trimL l).getLast? = some c) : isSpaceJS c = false := by
  unfold trimL at h
  rw [List.getLast?_reverse] at h
  exact head?_dropWhile_false h

theorem trimL_trimL (l : List Char) : trimL (trimL l) = trimL l := by
  have h1 : (trimL l).dropWhile isSpaceJS = trimL l :=
    dropWhile_eq_self_of_head fun c hc => trimL_head_not_space hc
  have h2 : (trimL l).reverse.dropWhile isSpaceJS = (trimL l).reverse :=
    dropWhile_eq_self_of_head fun c hc =>
      trimL_getLast_not_space (by rw [← List.head?_reverse]; exact hc)
  show ((((trimL l).dropWhile isSpaceJS).reverse).dropWhile isSpaceJS).reverse
      = trimL l
  rw [h1, h2, List.reverse_reverse]

theorem trimL_decomp (l : List Char) : ∃ a b, l = a ++ trimL l ++ b := by
  obtain ⟨a0, ha0⟩ := List.dropWhile_suffix (l := l) isSpaceJS
  obtain ⟨a1, ha1⟩ :=
    List.dropWhile_suffix (l := (l.dropWhile isSpaceJS).reverse) isSpaceJS
  refine ⟨a0, a1.reverse, ?_⟩
  have hd1 : l.dropWhile isSpaceJS = trimL l ++ a1.reverse := by
    have h2 := congrArg List.reverse ha1
    rw [List.reverse_append, List.reverse_reverse] at h2
    exact h2.symm
  calc l = a0 ++ l.dropWhile isSpaceJS := ha0.symm
    _ = a0 ++ (trimL l ++ a1.reverse) := by rw [hd1]
    _ = a0 ++ trimL l ++ a1.reverse := by simp

theorem noTag_trimL {l : List Char} (h : ¬ HasTag l) : ¬ HasTag (trimL l) := by
  intro ht
  obtain ⟨a, b, heq⟩ := trimL_decomp l
  exact h (heq ▸ hasTag_append a b ht)

/-- Claim C6: the strict sanitizer is idempotent, and its output contains no
complete markup tag (no substring of the form `<`, one or more non-`>`
characters, `>`) and in particular no `<script>` tag, hence no script
block. -/
theorem C6_sanitize_strict (s : String) :
    sanitizeString (sanitizeString s) = sanitizeString s ∧
    ¬ HasTag (sanitizeString s).data ∧
    ∀ pre post : List Char,
      (sanitizeString s).data ≠
        pre ++ '<' :: 's' :: 'c' :: 'r' :: 'i' :: 'p' :: 't' :: '>' :: post := by
  have hnt : ¬ HasTag (sanitizeString s).data := by
    by_cases hs : s = ""
    · subst hs
      rw [show sanitizeString "" = "" from by simp [sanitizeString]]
      exact not_hasTag_nil
    · rw [sanitizeString, if_neg hs]
      exact noTag_trimL (not_hasTag_stripTagsL _)
  have hdata : s ≠ "" →
      (sanitizeString s).data = trimL (stripTagsL (stripScriptsL s.data)) := by
    intro hs
    rw [sanitizeString, if_neg hs]
  refine ⟨?_, hnt, ?_⟩
  · by_cases hs : s = ""
    · subst hs
      simp [sanitizeString]
    · by_cases ht : sanitizeString s = ""
      · rw [ht]
        simp [sanitizeString]
      · conv_lhs => rw [sanitizeString]
        rw [if_neg ht]
        rw [stripScriptsL_id_of_noTag hnt, stripTagsL_id_of_noTag hnt,
          hdata hs, trimL_trimL, ← hdata hs]
  · intro pre post heq
    apply hnt
    rw [heq]
    exact ⟨pre, ['s', 'c', 'r', 'i', 'p', 't'], post, rfl, by simp, by decide⟩

/-! ## GPA pattern (`EducationForm.validateField`)

The regex `/^(\d+\.?\d*)\s*\/\s*(\d+\.?\d*)$/` is rendered as an anchored
deterministic parser (the character classes `\d`, `\.`, `\s`, `/` are
pairwise disjoint, so greedy matching never needs to backtrack),
and `parseFloat` of a matched numeral is modelled as the exact rational
value of the decimal literal. -/

/-- Value of a digit string read in base 10. -/
def digitsVal (l : List Char) : Nat :=
  l.foldl (fun a c => 10 * a + (c.toNat - 48)) 0

/-- Exact value of `ip.fp` as a rational. -/
def decValue (ip fp : List Char) : Rat :=
  (digitsVal ip : Rat) + (digitsVal fp : Rat) / (10 ^ fp.length)

/-- Parse `\d+\.?\d*`; return the value and the rest of the input. -/
def parseNum (l : List Char) : Option (Rat × List Char) :=
  let sp := l.span Char.isDigit
  if sp.1 = [] then none
  else
    match sp.2 with
    | c :: r2 =>
      if c = '.' then
        let sp2 := r2.span Char.isDigit
        some (decValue sp.1 sp2.1, sp2.2)
      else some (decValue sp.1 [], c :: r2)
    | [] => some (decValue sp.1 [], [])

def skipWS (l : List Char) : List Char := l.dropWhile isSpaceJS

/-- Full-string match of the GPA regex: `value.match(/^(\d+\.?\d*)\s*\/\s*(\d+\.?\d*)$/)`,
returning the two captured numbers. -/
def gpaMatch (s : String) : Option (Rat × Rat) :=
  match parseNum s.data with
  | none => none
  | some (a, r1) =>
    match skipWS r1 with
    | c :: r2 =>
      if c = '/' then
        match parseNum (skipWS r2) with
        | some (b, r3) => if r3 = [] then some (a, b) else none
        | none => none
      else none
    | [] => none

/-! ## Education Section Model (`EducationForm`) -/

structure EducationEntry where
  id : String
  institution : String
  degree : String
  field : String
  startDate : String
  endDate : String
  gpa : String
  achievements : List String
  deriving Repr, DecidableEq

/-- `addEducation`: append a blank entry whose id interpolates the current
clock (`Date.now()`), passed here as the explicit argument `now`. -/
def addEducation (data : List EducationEntry) (now : Nat) : List EducationEntry :=
  data ++ [{ id := "edu" ++ toString now, institution := "", degree := "",
             field := "", startDate := "", endDate := "", gpa := "",
             achievements := [] }]

inductive EduField
  | institution | degree | field | startDate | endDate | gpa
  deriving Repr, DecidableEq

def eduFieldName : EduField → String
  | .institution => "institution"
  | .degree => "degree"
  | .field => "field"
  | .startDate => "startDate"
  | .endDate => "endDate"
  | .gpa => "gpa"

/-- Overwrite-or-append for the JS object used as the error map
(`errors[key] = msg`). -/
def setKey (m : List (String × String)) (k v : String) : List (String × String) :=
  if m.any (fun p => p.1 = k) then m.map (fun p => if p.1 = k then (k, v) else p)
  else m ++ [(k, v)]

/-- `delete errors[key]`. -/
def delKey (m : List (String × String)) (k : String) : List (String × String) :=
  m.filter (fun p => p.1 ≠ k)

def hasKey (m : List (String × String)) (k : String) : Bool :=
  m.any (fun p => p.1 = k)

/-- `validateField` of the education form: date fields go through
`validateDate`, the GPA field through the GPA regex with the
earned-exceeds-total check; failures set the key `` `${id}-${field}` ``,
successes (and empty values) delete it.  Only the updated error map is
modelled; the boolean the source additionally returns is ignored by its
caller. -/
def validateFieldEdu (validationErrors : List (String × String)) (id : String)
    (f : EduField) (value : String) : List (String × String) :=
  let key := id ++ "-" ++ eduFieldName f
  let errs1 :=
    if f = .startDate ∨ f = .endDate then
      if value ≠ "" && !(validateDate value) then
        setKey validationErrors key "Invalid date format (use YYYY-MM or Present)"
      else delKey validationErrors key
    else validationErrors
  if f = .gpa then
    if value ≠ "" then
      match gpaMatch value with
      | none => setKey errs1 key "Format: 3.8/4.0"
      | some (earned, total) =>
        if earned > total then setKey errs1 key "GPA cannot exceed maximum"
        else delKey errs1 key
    else delKey errs1 key
  else errs1

def setEduField (e : EducationEntry) (f : EduField) (v : String) : EducationEntry :=
  match f with
  | .institution => { e with institution := v }
  | .degree => { e with degree := v }
  | .field => { e with field := v }
  | .startDate => { e with startDate := v }
  | .endDate => { e with endDate := v }
  | .gpa => { e with gpa := v }

/-- `updateEducation`: write the sanitized value into the entry matching
`id` (unconditionally), then run field validation; the pair returned is the
new list (sent through `onChange`) and the new error map
(`setValidationErrors`). -/
def updateEducation (data : List EducationEntry)
    (validationErrors : List (String × String)) (id : String) (f : EduField)
    (value : String) : List EducationEntry × List (String × String) :=
  (data.map fun edu =>
     if edu.id = id then setEduField edu f (sanitizeString value) else edu,
   validateFieldEdu validationErrors id f value)

def deleteEducation (data : List EducationEntry) (id : String) :
    List EducationEntry :=
  data.filter fun edu => edu.id ≠ id

/-! ## Repository summaries and tags (`githubService.getRepositoryTags`) -/

structure Repo where
  id : String
  name : String
  topics : List String
  languages : List String
  generatedTags : List String
  deriving Repr, DecidableEq

structure RepoTag where
  name : String
  type : String
  deriving Repr, DecidableEq

/-- `name.toLowerCase().trim()`. -/
def normalizeTag (name : String) : String := jsTrim (jsToLower name)

/-- The `addTag` closure: state is the accumulated tag list and the `seen`
set (modelled as the list of normalized names in insertion order). -/
def addTag (st : List RepoTag × List String) (name ty : String) :
    List RepoTag × List String :=
  let normalized := normalizeTag name
  if !(st.2.contains normalized) && strTruthy name then
    (st.1 ++ [{ name := name, type := ty }], st.2 ++ [normalized])
  else st

/-- `getRepositoryTags`: topics first, then languages, then LLM-generated
tags, deduplicated case-insensitively with first occurrence winning. -/
def getRepositoryTags (repo : Repo) : List RepoTag :=
  let st1 := repo.topics.foldl (fun st t => addTag st t "topic") ([], [])
  let st2 := repo.languages.foldl (fun st t => addTag st t "language") st1
  let st3 := repo.generatedTags.foldl (fun st t => addTag st t "generated") st2
  st3.1

/-! ## Experience Section Model (`ExperienceForm`) -/

structure ExperienceEntry where
  id : String
  type : String
  title : String
  organization : String
  location : String
  startDate : String
  endDate : String
  description : String
  technologies : List String
  repoId : Option String
  repoData : Option Repo
  deriving Repr, DecidableEq

/-- `addExperience`: append a blank entry of the given type with a
clock-interpolated id. -/
def addExperience (experiences : List ExperienceEntry) (now : Nat)
    (ty : String) : List ExperienceEntry :=
  experiences ++ [{ id := "exp" ++ toString now, type := ty, title := "",
                    organization := "", location := "", startDate := "",
                    endDate := "", description := "", technologies := [],
                    repoId := none, repoData := none }]

inductive ExpField
  | title | organization | location | startDate | endDate | description
  deriving Repr, DecidableEq

def expFieldName : ExpField → String
  | .title => "title"
  | .organization => "organization"
  | .location => "location"
  | .startDate => "startDate"
  | .endDate => "endDate"
  | .description => "description"

def setExpField (e : ExperienceEntry) (f : ExpField) (v : String) :
    ExperienceEntry :=
  match f with
  | .title => { e with title := v }
  | .organization => { e with organization := v }
  | .location => { e with location := v }
  | .startDate => { e with startDate := v }
  | .endDate => { e with endDate := v }
  | .description => { e with description := v }

/-- `updateExperience` from the source: sanitize (rich sanitizer for the
description field, strict otherwise) and write into the matching entry.
The source component keeps no validation-error state and calls no
validator here. -/
def updateExperience (experiences : List ExperienceEntry) (id : String)
    (f : ExpField) (value : String) : List ExperienceEntry :=
  experiences.map fun exp =>
    if exp.id = id then
      setExpField exp f
        (if f = .description then sanitizeDescription value
         else sanitizeString value)
    else exp

def deleteExperience (experiences : List ExperienceEntry) (id : String) :
    List ExperienceEntry :=
  experiences.filter fun exp => exp.id ≠ id

/-- Modelled from the spec: section 4.2 states that `update(id, field,
value)` of every Section Model "validates the field in isolation" and that
"validation failures are recorded in a field-keyed error map".  The source
`ExperienceForm` contains no such validation and no error map; this
definition renders the spec's words (date fields checked with the date
validator, failures recorded under `` `${id}-${field}` ``) so the claimed
behaviour can be compared with the source's. -/
def validateFieldExpSpec (errs : List (String × String)) (id : String)
    (f : ExpField) (value : String) : List (String × String) :=
  let key := id ++ "-" ++ expFieldName f
  if f = .startDate ∨ f = .endDate then
    if value ≠ "" && !(validateDate value) then
      setKey errs key "Invalid date format (use YYYY-MM or Present)"
    else delKey errs key
  else errs

/-! ## Form Orchestrator (`ResumeForm`) -/

structure PersonalInfo where
  fullName : String
  email : String
  phone : String
  location : String
  linkedin : String
  github : String
  website : String
  profileImage : String
  showContactIcons : Bool
  deriving Repr, DecidableEq

structure ResumeData where
  personalInfo : PersonalInfo
  education : List EducationEntry
  experiences : List ExperienceEntry
  selectedRepoIds : List String
  deriving Repr, DecidableEq

inductive ErrKey
  | fullName | email | education | experiences | content
  deriving Repr, DecidableEq

/-- `validateFormData`: the error object is modelled as an association list
in insertion order. -/
def validateFormData (data : ResumeData) : List (ErrKey × String) :=
  (if !(strTruthy data.personalInfo.fullName) ||
      !(strTruthy (jsTrim data.personalInfo.fullName)) then
    [(ErrKey.fullName, "Full name is required")]
  else []) ++
  (if !(strTruthy data.personalInfo.email) ||
      !(strTruthy (jsTrim data.personalInfo.email)) then
    [(ErrKey.email, "Email is required")]
  else []) ++
  (let incompleteEducation := data.education.any fun edu =>
    !(strTruthy edu.institution) || !(strTruthy edu.degree) ||
    !(strTruthy edu.field) || !(strTruthy edu.startDate) ||
    !(strTruthy edu.endDate)
  if data.education.length > 0 && incompleteEducation then
    [(ErrKey.education,
      "Please complete all education entries or remove incomplete ones")]
  else []) ++
  (let incompleteExperiences :=
    (data.experiences.filter fun exp => !(optTruthy exp.repoId)).any fun exp =>
      !(strTruthy exp.title) || !(strTruthy exp.organization) ||
      !(strTruthy exp.startDate) || !(strTruthy exp.endDate)
  if incompleteExperiences then
    [(ErrKey.experiences,
      "Please complete all experience entries (title, organization, dates) or remove incomplete ones")]
  else []) ++
  (if data.selectedRepoIds.length == 0 &&
      (data.experiences.filter fun exp => !(optTruthy exp.repoId)).length == 0 then
    [(ErrKey.content,
      "Please select at least one GitHub repository or add a manual experience entry")]
  else [])

/-- Result of `handleSubmit`: the error state after the call (`setErrors`)
and, when validation passed, the record handed to `onSubmit`. -/
structure SubmitResult where
  errors : List (ErrKey × String)
  submitted : Option ResumeData
  deriving Repr, DecidableEq

/-- `handleSubmit`: on any validation error, replace the error state and
return without invoking `onSubmit`; otherwise clear errors and submit. -/
def handleSubmit (data : ResumeData) (prevErrors : List (ErrKey × String)) :
    SubmitResult :=
  let validationErrors := validateFormData data
  if validationErrors.length > 0 then
    { errors := validationErrors, submitted := none }
  else
    { errors := [], submitted := some data }

/-! ## Persistence Adapter (`loadSavedFormData`)

`JSON.parse` is passed in as an `Option`-returning function (`none` models
a thrown `SyntaxError`); `sessionStorage.getItem`/`localStorage.getItem`
results are `Option String` (`none` models `null`).  The single
`try`/`catch` wraps both tier reads, exactly as in the source: a parse
exception in either tier jumps to the catch and falls through to the
built-in default template. -/
def loadSavedFormData {α : Type} (parseJSON : String → Option α)
    (mockResumeData : α) (sessionData localData : Option String) : α :=
  let tryLocal : α :=
    match localData with
    | some s =>
      if s ≠ "" then
        match parseJSON s with
        | some v => v
        | none => mockResumeData
      else mockResumeData
    | none => mockResumeData
  match sessionData with
  | some s =>
    if s ≠ "" then
      match parseJSON s with
      | some v => v
      | none => mockResumeData
    else tryLocal
  | none => tryLocal

/-! ## Section navigation (`ResumeForm`) -/

/-- The fixed section order (ids of the `SECTIONS` array). -/
def SECTIONS : List String := ["personal", "education", "experience"]

/-- `findIndex` semantics: index of the matching section, `-1` if absent. -/
def getCurrentSectionIndex (currentSection : String) : Int :=
  match SECTIONS.findIdx? (fun s => s = currentSection) with
  | some n => (n : Int)
  | none => -1

def goToNextSection (currentSection : String) : String :=
  let currentIndex := getCurrentSectionIndex currentSection
  if currentIndex < (SECTIONS.length : Int) - 1 then
    SECTIONS.getD (currentIndex + 1).toNat ""
  else currentSection

def goToPrevSection (currentSection : String) : String :=
  let currentIndex := getCurrentSectionIndex currentSection
  if currentIndex > 0 then
    SECTIONS.getD (currentIndex - 1).toNat ""
  else currentSection

/-- User-triggerable cursor transitions: the back/next buttons and the tab
strip (whose buttons are generated from `SECTIONS`, hence `Fin 3`). -/
inductive NavOp
  | next
  | prev
  | jump (i : Fin 3)

def navStep (currentSection : String) : NavOp → String
  | NavOp.next => goToNextSection currentSection
  | NavOp.prev => goToPrevSection currentSection
  | NavOp.jump i => SECTIONS.getD i.1 ""

def navRun (ops : List NavOp) (init : String) : String :=
  ops.foldl navStep init

/-! ## Claim C9: the section cursor -/

theorem navStep_mem {s : String} (h : s ∈ SECTIONS) (op : NavOp) :
    navStep s op ∈ SECTIONS := by
  cases op with
  | next =>
    simp only [SECTIONS, List.mem_cons, List.not_mem_nil, or_false] at h
    rcases h with rfl | rfl | rfl <;> decide
  | prev =>
    simp only [SECTIONS, List.mem_cons, List.not_mem_nil, or_false] at h
    rcases h with rfl | rfl | rfl <;> decide
  | jump i =>
    show SECTIONS.getD i.1 "" ∈ SECTIONS
    have hi := i.2
    interval_cases hv : i.1 <;> decide

/-- Claim C9: the cursor starts at `personal` (the head of the fixed order
personal, education, experience); `next` advances one section and is a
no-op at the last section; `prev` moves back one and is a no-op at the
first; `jump` always moves to the requested section regardless of the
current one; and any sequence of transitions started at `personal` stays
inside the three fixed section identifiers. -/
theorem C9_section_cursor :
    SECTIONS.headD "" = "personal" ∧
    navStep "personal" NavOp.next = "education" ∧
    navStep "education" NavOp.next = "experience" ∧
    navStep "experience" NavOp.next = "experience" ∧
    navStep "personal" NavOp.prev = "personal" ∧
    navStep "education" NavOp.prev = "personal" ∧
    navStep "experience" NavOp.prev = "education" ∧
    (∀ (s : String) (i : Fin 3), navStep s (NavOp.jump i) = SECTIONS.getD i.1 "") ∧
    ∀ ops : List NavOp, navRun ops "personal" ∈ SECTIONS := by
  refine ⟨rfl, by decide, by decide, by decide, by decide, by decide, by decide,
    fun s i => rfl, fun ops => ?_⟩
  have hgen : ∀ (ops : List NavOp) (s : String), s ∈ SECTIONS →
      navRun ops s ∈ SECTIONS := by
    intro ops
    induction ops with
    | nil => intro s hs; exact hs
    | cons op rest ih =>
      intro s hs
      exact ih (navStep s op) (navStep_mem hs op)
  exact hgen ops "personal" (by decide)

/-! ## Claim C10: repository tag aggregation -/

/-- First-occurrence-wins, case-insensitive deduplication of a labeled
(name, origin-type) list, skipping falsy names: the behaviour
`getRepositoryTags` is claimed to have, written as a direct recursion. -/
def specFirstWins : List (String × String) → List String → List RepoTag
  | [], _ => []
  | (n, t) :: rest, seen =>
    if !(seen.contains (normalizeTag n)) && strTruthy n then
      { name := n, type := t } :: specFirstWins rest (seen ++ [normalizeTag n])
    else specFirstWins rest seen

/-- The three tag sources of a repository, labeled with their origin,
in accumulation order. -/
def taggedAll (repo : Repo) : List (String × String) :=
  repo.topics.map (fun t => (t, "topic")) ++
  repo.languages.map (fun t => (t, "language")) ++
  repo.generatedTags.map (fun t => (t, "generated"))

theorem addTag_eq (acc : List RepoTag) (seen : List String) (n t : String) :
    addTag (acc, seen) n t =
      if !(seen.contains (normalizeTag n)) && strTruthy n then
        (acc ++ [{ name := n, type := t }], seen ++ [normalizeTag n])
      else (acc, seen) := rfl

theorem foldl_addTag_eq (pending : List (String × String))
    (acc : List RepoTag) (seen : List String) :
    (pending.foldl (fun st p => addTag st p.1 p.2) (acc, seen)).1 =
      acc ++ specFirstWins pending seen := by
  induction pending generalizing acc seen with
  | nil => simp [specFirstWins]
  | cons p rest ih =>
    obtain ⟨n, t⟩ := p
    rw [List.foldl_cons, specFirstWins]
    show ((rest.foldl (fun st p => addTag st p.1 p.2) (addTag (acc, seen) n t))).1 = _
    rw [addTag_eq]
    split
    · rw [ih]
      simp
    · exact ih acc seen

theorem foldl_addTag_label (l : List String) (ty : String)
    (st : List RepoTag × List String) :
    l.foldl (fun st t => addTag st t ty) st =
      (l.map (fun t => (t, ty))).foldl (fun st p => addTag st p.1 p.2) st := by
  induction l generalizing st with
  | nil => rfl
  | cons x xs ih => simp only [List.foldl_cons, List.map_cons, ih]

theorem getRepositoryTags_eq_specFirstWins (repo : Repo) :
    getRepositoryTags repo = specFirstWins (taggedAll repo) [] := by
  simp only [getRepositoryTags, taggedAll]
  rw [foldl_addTag_label repo.topics "topic",
    foldl_addTag_label repo.languages "language",
    foldl_addTag_label repo.generatedTags "generated",
    ← List.foldl_append, ← List.foldl_append]
  simpa using foldl_addTag_eq
    (repo.topics.map (fun t => (t, "topic")) ++
      repo.languages.map (fun t => (t, "language")) ++
      repo.generatedTags.map (fun t => (t, "generated"))) [] []

theorem specFirstWins_norms (pending : List (String × String)) :
    ∀ seen : List String,
      ((specFirstWins pending seen).map (fun t => normalizeTag t.name)).Nodup ∧
      ∀ x ∈ (specFirstWins pending seen).map (fun t => normalizeTag t.name),
        x ∉ seen := by
  induction pending with
  | nil => intro seen; simp [specFirstWins]
  | cons p rest ih =>
    intro seen
    obtain ⟨n, t⟩ := p
    rw [specFirstWins]
    split
    · rename_i hcond
      simp only [Bool.and_eq_true, Bool.not_eq_true'] at hcond
      have hn : normalizeTag n ∉ seen := by
        intro hmem
        have hc : seen.contains (normalizeTag n) = true := List.elem_iff.mpr hmem
        rw [hcond.1] at hc
        exact Bool.false_ne_true hc
      obtain ⟨ihn, ihf⟩ := ih (seen ++ [normalizeTag n])
      constructor
      · simp only [List.map_cons, List.nodup_cons]
        refine ⟨fun hmem => ?_, ihn⟩
        have := ihf _ hmem
        simp at this
      · intro x hx
        simp only [List.map_cons, List.mem_cons] at hx
        rcases hx with rfl | hx
        · exact hn
        · intro hxs
          exact ihf x hx (by simp [hxs])
    · exact ih seen

theorem specFirstWins_sources (pending : List (String × String)) :
    ∀ seen : List String, ∀ tag ∈ specFirstWins pending seen,
      tag.name ≠ "" ∧ (tag.name, tag.type) ∈ pending := by
  induction pending with
  | nil => intro seen tag h; simp [specFirstWins] at h
  | cons p rest ih =>
    intro seen tag h
    obtain ⟨n, t⟩ := p
    rw [specFirstWins] at h
    split at h
    · rename_i hcond
      simp only [Bool.and_eq_true] at hcond
      rcases List.mem_cons.mp h with rfl | h2
      · refine ⟨?_, by simp⟩
        have := hcond.2
        simpa [strTruthy] using this
      · obtain ⟨h3, h4⟩ := ih _ tag h2
        exact ⟨h3, List.mem_cons.mpr (Or.inr h4)⟩
    · obtain ⟨h3, h4⟩ := ih _ tag h
      exact ⟨h3, List.mem_cons.mpr (Or.inr h4)⟩

/-- Claim C10: `getRepositoryTags` accumulates topics, then languages, then
LLM-generated tags, labeled with their origin, first occurrence winning,
never adding an entry with an empty (falsy) name; consequently no two
entries of the result have names equal after lowercasing and trimming, and
every entry's name comes from the source list its origin label names. -/
theorem C10_repository_tags (repo : Repo) :
    getRepositoryTags repo = specFirstWins (taggedAll repo) [] ∧
    ((getRepositoryTags repo).map (fun t => normalizeTag t.name)).Nodup ∧
    (∀ tag ∈ getRepositoryTags repo, tag.name ≠ "") ∧
    ∀ tag ∈ getRepositoryTags repo,
      (tag.type = "topic" ∧ tag.name ∈ repo.topics) ∨
      (tag.type = "language" ∧ tag.name ∈ repo.languages) ∨
      (tag.type = "generated" ∧ tag.name ∈ repo.generatedTags) := by
  have heq := getRepositoryTags_eq_specFirstWins repo
  refine ⟨heq, ?_, ?_, ?_⟩
  · rw [heq]
    exact (specFirstWins_norms (taggedAll repo) []).1
  · intro tag htag
    rw [heq] at htag
    exact (specFirstWins_sources (taggedAll repo) [] tag htag).1
  · intro tag htag
    rw [heq] at htag
    have hmem := (specFirstWins_sources (taggedAll repo) [] tag htag).2
    unfold taggedAll at hmem
    rcases List.mem_append.mp hmem with hm | hm
    · rcases List.mem_append.mp hm with hm2 | hm2
      · obtain ⟨x, hx, hpair⟩ := List.mem_map.mp hm2
        left
        have h1 : x = tag.name := congrArg Prod.fst hpair
        have h2 : "topic" = tag.type := congrArg Prod.snd hpair
        exact ⟨h2.symm, h1 ▸ hx⟩
      · obtain ⟨x, hx, hpair⟩ := List.mem_map.mp hm2
        right; left
        have h1 : x = tag.name := congrArg Prod.fst hpair
        have h2 : "language" = tag.type := congrArg Prod.snd hpair
        exact ⟨h2.symm, h1 ▸ hx⟩
    · obtain ⟨x, hx, hpair⟩ := List.mem_map.mp hm
      right; right
      have h1 : x = tag.name := congrArg Prod.fst hpair
      have h2 : "generated" = tag.type := congrArg Prod.snd hpair
      exact ⟨h2.symm, h1 ▸ hx⟩

/-- Claim C10 witness: the aggregation evaluated on a concrete repository,
with the membership facts discharged concretely. -/
theorem C10_witness :
    getRepositoryTags
        { id := "1", name := "r", topics := ["React", " react ", ""],
          languages := ["JS"], generatedTags := ["js", "API"] } =
      specFirstWins
        (taggedAll
          { id := "1", name := "r", topics := ["React", " react ", ""],
            languages := ["JS"], generatedTags := ["js", "API"] }) [] :=
  (C10_repository_tags _).1

/-- Claim C6 witness: the idempotence equation of the theorem applied at a
concrete input containing a tag. -/
theorem C6_witness :
    sanitizeString (sanitizeString "a<b>c") = sanitizeString "a<b>c" :=
  (C6_sanitize_strict "a<b>c").1

/-! ## Claim C8: GPA field validation -/

theorem hasKey_setKey (m : List (String × String)) (k v : String) :
    hasKey (setKey m k v) k = true := by
  unfold setKey
  split
  · rename_i h
    obtain ⟨p, hp, hpk⟩ := List.any_eq_true.mp h
    apply List.any_eq_true.mpr
    refine ⟨(k, v), ?_, by simp⟩
    apply List.mem_map.mpr
    refine ⟨p, hp, ?_⟩
    rw [if_pos (by simpa using hpk)]
  · apply List.any_eq_true.mpr
    exact ⟨(k, v), by simp, by simp⟩

theorem hasKey_delKey (m : List (String × String)) (k : String) :
    hasKey (delKey m k) k = false := by
  unfold hasKey delKey
  rw [List.any_eq_false]
  intro p hp
  have := (List.mem_filter.mp hp).2
  simpa using this

theorem isSpaceJS_of_isDigit {c : Char} (h : c.isDigit = true) :
    isSpaceJS c = false := by
  rw [char_isDigit_iff] at h
  unfold isSpaceJS
  have h1 : c ≠ ' ' := by
    intro he
    rw [char_eq_iff_toNat] at he
    have : (' ').toNat = 32 := rfl
    omega
  have h2 : c ≠ '\t' := by
    intro he
    rw [char_eq_iff_toNat] at he
    have : ('\t').toNat = 9 := rfl
    omega
  have h3 : c ≠ '\n' := by
    intro he
    rw [char_eq_iff_toNat] at he
    have : ('\n').toNat = 10 := rfl
    omega
  have h4 : c ≠ '\r' := by
    intro he
    rw [char_eq_iff_toNat] at he
    have : ('\r').toNat = 13 := rfl
    omega
  simp [h1, h2, h3, h4]

theorem takeWhile_digits (d rest : List Char) (hd : ∀ c ∈ d, c.isDigit = true)
    (hrest : ∀ c, rest.head? = some c → c.isDigit = false) :
    (d ++ rest).takeWhile Char.isDigit = d := by
  induction d with
  | nil =>
    cases rest with
    | nil => rfl
    | cons c t =>
      simp only [List.nil_append, List.takeWhile_cons, hrest c rfl]
      rfl
  | cons c d2 ih =>
    have hc : c.isDigit = true := hd c (by simp)
    simp only [List.cons_append, List.takeWhile_cons, hc, if_true]
    rw [ih (fun x hx => hd x (by simp [hx]))]

theorem dropWhile_digits (d rest : List Char) (hd : ∀ c ∈ d, c.isDigit = true)
    (hrest : ∀ c, rest.head? = some c → c.isDigit = false) :
    (d ++ rest).dropWhile Char.isDigit = rest := by
  induction d with
  | nil =>
    cases rest with
    | nil => rfl
    | cons c t =>
      simp only [List.nil_append, List.dropWhile_cons, hrest c rfl]
      rfl
  | cons c d2 ih =>
    have hc : c.isDigit = true := hd c (by simp)
    simp only [List.cons_append, List.dropWhile_cons, hc, if_true]
    exact ih (fun x hx => hd x (by simp [hx]))

theorem span_digits (d rest : List Char) (hd : ∀ c ∈ d, c.isDigit = true)
    (hrest : ∀ c, rest.head? = some c → c.isDigit = false) :
    (d ++ rest).span Char.isDigit = (d, rest) := by
  rw [List.span_eq_take_drop, takeWhile_digits d rest hd hrest,
    dropWhile_digits d rest hd hrest]

theorem decValue_nil_frac (d : List Char) : decValue d [] = (digitsVal d : Rat) := by
  simp [decValue, digitsVal]

theorem parseNum_digits (d rest : List Char) (hne : d ≠ [])
    (hd : ∀ c ∈ d, c.isDigit = true)
    (hrest : ∀ c, rest.head? = some c → c.isDigit = false)
    (hdot : rest.head? ≠ some '.') :
    parseNum (d ++ rest) = some ((digitsVal d : Rat), rest) := by
  unfold parseNum
  rw [span_digits d rest hd hrest]
  rw [if_neg (by simpa using hne)]
  cases rest with
  | nil => rw [decValue_nil_frac]
  | cons c t =>
    have hc : ¬ c = '.' := fun he => hdot (by rw [he]; rfl)
    simp only [if_neg hc]
    rw [decValue_nil_frac]

theorem skipWS_of_digits {l : List Char} (h : ∀ c ∈ l, c.isDigit = true) :
    skipWS l = l := by
  unfold skipWS
  apply dropWhile_eq_self_of_head
  intro c hc
  cases l with
  | nil => simp at hc
  | cons a t =>
    rw [List.head?_cons] at hc
    injection hc with hc
    rw [← hc]
    exact isSpaceJS_of_isDigit (h a (by simp))

theorem gpaMatch_digits (d1 d2 : List Char) (h1 : d1 ≠ []) (h2 : d2 ≠ [])
    (hd1 : ∀ c ∈ d1, c.isDigit = true) (hd2 : ∀ c ∈ d2, c.isDigit = true) :
    gpaMatch (String.mk (d1 ++ '/' :: d2)) =
      some ((digitsVal d1 : Rat), (digitsVal d2 : Rat)) := by
  unfold gpaMatch
  show (match parseNum (d1 ++ '/' :: d2) with
    | none => none
    | some (a, r1) => _) = _
  rw [parseNum_digits d1 ('/' :: d2) h1 hd1
    (fun c hc => by simp at hc; rw [← hc]; rfl) (by simp)]
  show (match skipWS ('/' :: d2) with
    | c :: r2 => _
    | [] => none) = _
  have hsk : skipWS ('/' :: d2) = '/' :: d2 := by
    unfold skipWS
    apply dropWhile_eq_self_of_head
    intro c hc
    simp at hc
    rw [← hc]
    rfl
  rw [hsk]
  simp only [if_pos rfl]
  rw [skipWS_of_digits hd2]
  have hp2 : parseNum (d2 ++ []) = some ((digitsVal d2 : Rat), []) :=
    parseNum_digits d2 [] h2 hd2 (by simp) (by simp)
  rw [List.append_nil] at hp2
  rw [hp2]
  simp

theorem validateFieldEdu_gpa_key (errs : List (String × String)) (id v : String) :
    hasKey (validateFieldEdu errs id EduField.gpa v)
      (id ++ "-" ++ eduFieldName EduField.gpa) = false ↔
    (v = "" ∨ ∃ a b : Rat, gpaMatch v = some (a, b) ∧ a ≤ b) := by
  simp only [validateFieldEdu, if_true]
  by_cases hv : v = ""
  · rw [if_neg (by simp [hv])]
    simp [hasKey_delKey, hv]
  · rw [if_pos (by simpa using hv)]
    cases hg : gpaMatch v with
    | none =>
      simp only [hasKey_setKey]
      constructor
      · intro h; exact absurd h (by simp)
      · rintro (h | ⟨a, b, hab, _⟩)
        · exact absurd h hv
        · exact Option.noConfusion hab
    | some p =>
      obtain ⟨a, b⟩ := p
      split
      · rename_i hbad
        exact Option.noConfusion hbad
      · rename_i earned total hsome
        injection hsome with hsome
        have ha : a = earned := congrArg Prod.fst hsome
        have hb : b = total := congrArg Prod.snd hsome
        subst ha
        subst hb
        split
        · rename_i hgt
          simp only [hasKey_setKey]
          constructor
          · intro h; exact absurd h (by simp)
          · rintro (h | ⟨a2, b2, hab, hle⟩)
            · exact absurd h hv
            · injection hab with hab
              have ha2 : a = a2 := congrArg Prod.fst hab
              have hb2 : b = b2 := congrArg Prod.snd hab
              rw [← ha2, ← hb2] at hle
              exact absurd hle (not_le.mpr hgt)
        · rename_i hle
          simp only [hasKey_delKey]
          constructor
          · intro _
            exact Or.inr ⟨a, b, rfl, le_of_not_lt (by simpa using hle)⟩
          · intro _
            trivial

theorem gpa_ex_42 : gpaMatch "4.2/4.0" = some (21 / 5, 4) := by
  have e1 : gpaMatch "4.2/4.0" =
      some (decValue ['4'] ['2'], decValue ['4'] ['0']) := rfl
  rw [e1]
  have v1 : decValue ['4'] ['2'] = 21 / 5 := by
    unfold decValue
    rw [show digitsVal ['4'] = 4 from by decide,
      show digitsVal ['2'] = 2 from by decide]
    norm_num
  have v2 : decValue ['4'] ['0'] = 4 := by
    unfold decValue
    rw [show digitsVal ['4'] = 4 from by decide,
      show digitsVal ['0'] = 0 from by decide]
    norm_num
  rw [v1, v2]

theorem gpa_ex_38 : gpaMatch "3.8/4.0" = some (19 / 5, 4) := by
  have e1 : gpaMatch "3.8/4.0" =
      some (decValue ['3'] ['8'], decValue ['4'] ['0']) := rfl
  rw [e1]
  have v1 : decValue ['3'] ['8'] = 19 / 5 := by
    unfold decValue
    rw [show digitsVal ['3'] = 3 from by decide,
      show digitsVal ['8'] = 8 from by decide]
    norm_num
  have v2 : decValue ['4'] ['0'] = 4 := by
    unfold decValue
    rw [show digitsVal ['4'] = 4 from by decide,
      show digitsVal ['0'] = 0 from by decide]
    norm_num
  rw [v1, v2]

/-- Claim C8: GPA field validation records no error exactly for the empty
value or a string matched by the GPA pattern with earned value at most the
total; in particular every plain pair of digit numerals `d1/d2` is matched
with its exact values, `"4.2/4.0"` fails (4.2 exceeds 4.0), `"3.8/4.0"`
passes, and the malformed shapes `"3.8"` and `"x/y"` are rejected by the
pattern. -/
theorem C8_gpa_validation :
    (∀ (errs : List (String × String)) (id v : String),
      hasKey (validateFieldEdu errs id EduField.gpa v)
        (id ++ "-" ++ eduFieldName EduField.gpa) = false ↔
      (v = "" ∨ ∃ a b : Rat, gpaMatch v = some (a, b) ∧ a ≤ b)) ∧
    (∀ d1 d2 : List Char, d1 ≠ [] → d2 ≠ [] →
      (∀ c ∈ d1, c.isDigit = true) → (∀ c ∈ d2, c.isDigit = true) →
      gpaMatch (String.mk (d1 ++ '/' :: d2)) =
        some ((digitsVal d1 : Rat), (digitsVal d2 : Rat))) ∧
    gpaMatch "4.2/4.0" = some (21 / 5, 4) ∧ ¬ ((21 : Rat) / 5 ≤ 4) ∧
    gpaMatch "3.8/4.0" = some (19 / 5, 4) ∧ ((19 : Rat) / 5 ≤ 4) ∧
    gpaMatch "3.8" = none ∧ gpaMatch "x/y" = none :=
  ⟨validateFieldEdu_gpa_key, gpaMatch_digits,
   gpa_ex_42, by norm_num, gpa_ex_38, by norm_num, rfl, rfl⟩

/-- Claim C8 witness: the characterization applied at concrete inputs. -/
theorem C8_witness :
    hasKey (validateFieldEdu [] "edu1" EduField.gpa "")
      ("edu1" ++ "-" ++ eduFieldName EduField.gpa) = false ∧
    gpaMatch (String.mk (['3'] ++ '/' :: ['4'])) =
      some ((digitsVal ['3'] : Rat), (digitsVal ['4'] : Rat)) :=
  ⟨(C8_gpa_validation.1 [] "edu1" "").mpr (Or.inl rfl),
   C8_gpa_validation.2.1 ['3'] ['4'] (by decide) (by decide) (by decide)
     (by decide)⟩

/-! ## Claim C5: section model updates -/

theorem not_hasTag_of_no_lt {l : List Char} (h : '<' ∉ l) : ¬ HasTag l := by
  rintro ⟨pre, mid, post, heq, _, _⟩
  exact h (by rw [heq]; simp)

/-- A string with no `<` and no surrounding whitespace is fixed by the
strict sanitizer. -/
theorem sanitizeString_eq_self {s : String} (h1 : s ≠ "")
    (h2 : '<' ∉ s.data) (h3 : trimL s.data = s.data) :
    sanitizeString s = s := by
  rw [sanitizeString, if_neg h1,
    stripScriptsL_id_of_noTag (not_hasTag_of_no_lt h2),
    stripTagsL_id_of_noTag (not_hasTag_of_no_lt h2), h3]

def expEx : ExperienceEntry :=
  { id := "exp1", type := "work", title := "", organization := "",
    location := "", startDate := "", endDate := "", description := "",
    technologies := [], repoId := none, repoData := none }

/-- Claim C5 (counterexample): the claim says the experience model's
`update` validates the field and records failures in a field-keyed error
map.  The spec-modelled update (`validateFieldExpSpec`) records the key
`exp1-startDate` for the invalid date `"13-2020"`, but the source
`updateExperience` only sanitizes and writes the invalid value into the
entry — it keeps no error map at all, so nothing is recorded. -/
theorem C5_counterexample :
    validateFieldExpSpec [] "exp1" ExpField.startDate "13-2020" =
      [("exp1-startDate", "Invalid date format (use YYYY-MM or Present)")] ∧
    updateExperience [expEx] "exp1" ExpField.startDate "13-2020" =
      [{ expEx with startDate := "13-2020" }] := by
  constructor
  · decide
  · have hs : sanitizeString "13-2020" = "13-2020" :=
      sanitizeString_eq_self (by decide) (by decide) (by decide)
    simp [updateExperience, setExpField, expEx, hs]

theorem validateFieldEdu_date_eq (errs : List (String × String)) (id v : String)
    (f : EduField) (hf : f = EduField.startDate ∨ f = EduField.endDate) :
    validateFieldEdu errs id f v =
      (if (v ≠ "" && !(validateDate v)) = true then
        setKey errs (id ++ "-" ++ eduFieldName f)
          "Invalid date format (use YYYY-MM or Present)"
      else delKey errs (id ++ "-" ++ eduFieldName f)) := by
  rcases hf with rfl | rfl <;> rfl

/-- Claim C5 (amended): `update(id, field, value)` of the education model
writes the sanitized value into the entry whose id matches,
unconditionally, for every field; a validation failure of a date field
(a non-empty value rejected by the date validator) or of the GPA field
(a non-empty value that the GPA pattern rejects or whose earned value
exceeds the total) is recorded in the field-keyed error map under
`` `${id}-${field}` `` and never blocks that write.  The experience
model's `update` sanitizes (rich sanitizer for the description field,
strict otherwise) and writes into the matching entry with no field
validation and no error map.  Both updates are total functions: the
mutation callback always receives a structurally well-formed slice, and no
error crosses the Orchestrator/Section Model boundary. -/
theorem C5_section_update_amended (data : List EducationEntry)
    (errs : List (String × String)) (id v : String) :
    (∀ f : EduField, (updateEducation data errs id f v).1 =
      data.map (fun edu => if edu.id = id
        then setEduField edu f (sanitizeString v) else edu)) ∧
    (∀ f : EduField, f = EduField.startDate ∨ f = EduField.endDate →
      v ≠ "" → validateDate v = false →
      hasKey (updateEducation data errs id f v).2
        (id ++ "-" ++ eduFieldName f) = true) ∧
    (v ≠ "" → ¬ (∃ a b : Rat, gpaMatch v = some (a, b) ∧ a ≤ b) →
      hasKey (updateEducation data errs id EduField.gpa v).2
        (id ++ "-" ++ eduFieldName EduField.gpa) = true) ∧
    (∀ (exps : List ExperienceEntry) (f : ExpField),
      updateExperience exps id f v =
        exps.map (fun exp => if exp.id = id then
          setExpField exp f
            (if f = ExpField.description then sanitizeDescription v
             else sanitizeString v) else exp)) := by
  refine ⟨fun f => rfl, ?_, ?_, fun exps f => rfl⟩
  · intro f hf hv hd
    show hasKey (validateFieldEdu errs id f v) _ = true
    rw [validateFieldEdu_date_eq errs id v f hf, if_pos (by simp [hv, hd])]
    exact hasKey_setKey _ _ _
  · intro hv hnp
    have hiff := validateFieldEdu_gpa_key errs id v
    cases hk : hasKey (validateFieldEdu errs id EduField.gpa v)
        (id ++ "-" ++ eduFieldName EduField.gpa) with
    | true => exact hk
    | false =>
      rcases hiff.mp hk with h | h
      · exact absurd h hv
      · exact absurd h hnp

def eduC5 : EducationEntry :=
  { id := "e1", institution := "", degree := "", field := "",
    startDate := "", endDate := "", gpa := "", achievements := [] }

/-- Claim C5 witness: the amended contract applied at concrete invalid
values for both date fields and the GPA field, and at a concrete write. -/
theorem C5_witness :
    hasKey (updateEducation [eduC5] [] "e1" EduField.startDate "bad").2
      ("e1" ++ "-" ++ eduFieldName EduField.startDate) = true ∧
    hasKey (updateEducation [eduC5] [] "e1" EduField.endDate "bad").2
      ("e1" ++ "-" ++ eduFieldName EduField.endDate) = true ∧
    hasKey (updateEducation [eduC5] [] "e1" EduField.gpa "4.2/4.0").2
      ("e1" ++ "-" ++ eduFieldName EduField.gpa) = true ∧
    (updateEducation [eduC5] [] "e1" EduField.startDate "bad").1 =
      [{ eduC5 with startDate := sanitizeString "bad" }] := by
  have h := C5_section_update_amended [eduC5] [] "e1" "bad"
  have hg := C5_section_update_amended [eduC5] [] "e1" "4.2/4.0"
  have hnp : ¬ (∃ a b : Rat, gpaMatch "4.2/4.0" = some (a, b) ∧ a ≤ b) := by
    rintro ⟨a, b, hab, hle⟩
    rw [gpa_ex_42] at hab
    injection hab with hab
    have ha : (21 : Rat) / 5 = a := congrArg Prod.fst hab
    have hb : (4 : Rat) = b := congrArg Prod.snd hab
    rw [← ha, ← hb] at hle
    norm_num at hle
  refine ⟨h.2.1 EduField.startDate (Or.inl rfl) (by decide) (by decide),
    h.2.1 EduField.endDate (Or.inr rfl) (by decide) (by decide),
    hg.2.2.1 (by decide) hnp, ?_⟩
  rw [h.1 EduField.startDate]
  simp [eduC5, setEduField]

/-! ## Claim C7: education add/remove round trip

`Nat.repr` is shown injective by decoding the digit string it produces. -/

/-- Reference decimal rendering: the digits of `n`, most significant
first. -/
def repDigits (n : Nat) : List Char :=
  if h : n < 10 then [Nat.digitChar n]
  else repDigits (n / 10) ++ [Nat.digitChar (n % 10)]
decreasing_by
  exact Nat.div_lt_self (by omega) (by omega)

theorem toDigitsCore_eq_repDigits (fuel : Nat) :
    ∀ n acc, n < fuel →
      Nat.toDigitsCore 10 fuel n acc = repDigits n ++ acc := by
  induction fuel with
  | zero => intro n acc h; omega
  | succ fuel ih =>
    intro n acc h
    rw [Nat.toDigitsCore]
    by_cases h10 : n / 10 = 0
    · have hn : n < 10 := by omega
      simp only [h10, if_true]
      rw [repDigits, dif_pos hn, Nat.mod_eq_of_lt hn]
      rfl
    · simp only [h10, if_false]
      have hge : 10 ≤ n := by
        by_contra hcon
        exact h10 (Nat.div_eq_of_lt (by omega))
      have hlt : n / 10 < fuel := by
        have h1 : n / 10 < n := Nat.div_lt_self (by omega) (by omega)
        omega
      rw [ih (n / 10) _ hlt]
      conv_rhs => rw [repDigits]
      rw [dif_neg (by omega)]
      simp

theorem digitChar_toNat {d : Nat} (h : d < 10) :
    (Nat.digitChar d).toNat = 48 + d := by
  interval_cases d <;> decide

theorem digitsVal_append_one (l : List Char) (c : Char) :
    digitsVal (l ++ [c]) = 10 * digitsVal l + (c.toNat - 48) := by
  unfold digitsVal
  rw [List.foldl_append]
  rfl

theorem digitsVal_repDigits (n : Nat) : digitsVal (repDigits n) = n := by
  induction n using Nat.strong_induction_on with
  | _ n ih =>
    by_cases h : n < 10
    · rw [repDigits, dif_pos h]
      show digitsVal ([] ++ [Nat.digitChar n]) = n
      rw [digitsVal_append_one, digitChar_toNat h]
      simp [digitsVal]
    · rw [repDigits, dif_neg h, digitsVal_append_one,
        ih (n / 10) (Nat.div_lt_self (by omega) (by omega)),
        digitChar_toNat (Nat.mod_lt n (by omega))]
      omega

theorem natRepr_injective {m n : Nat} (h : Nat.repr m = Nat.repr n) : m = n := by
  have hm : Nat.repr m = (repDigits m).asString := by
    show (Nat.toDigits 10 m).asString = _
    rw [show Nat.toDigits 10 m = Nat.toDigitsCore 10 (m + 1) m [] from rfl,
      toDigitsCore_eq_repDigits (m + 1) m [] (by omega), List.append_nil]
  have hn : Nat.repr n = (repDigits n).asString := by
    show (Nat.toDigits 10 n).asString = _
    rw [show Nat.toDigits 10 n = Nat.toDigitsCore 10 (n + 1) n [] from rfl,
      toDigitsCore_eq_repDigits (n + 1) n [] (by omega), List.append_nil]
  rw [hm, hn] at h
  have hdata : repDigits m = repDigits n := congrArg String.data h
  calc m = digitsVal (repDigits m) := (digitsVal_repDigits m).symm
    _ = digitsVal (repDigits n) := by rw [hdata]
    _ = n := digitsVal_repDigits n

theorem eduId_injective {m n : Nat}
    (h : "edu" ++ toString m = "edu" ++ toString n) : m = n := by
  have hd := congrArg String.data h
  simp only [String.data_append] at hd
  have h2 := List.append_cancel_left hd
  exact natRepr_injective (String.ext h2)

def eduEx7 : EducationEntry :=
  { id := "edu5", institution := "", degree := "", field := "",
    startDate := "", endDate := "", gpa := "", achievements := [] }

/-- Claim C7 (counterexample): when the clock value collides with an id
already in the list (`Date.now()` has millisecond resolution and is not
guaranteed fresh), the assigned id duplicates an existing one and removing
it deletes both entries, so the round trip does not restore the prior
list. -/
theorem C7_counterexample :
    (addEducation [eduEx7] 5).map (fun e => e.id) = ["edu5", "edu5"] ∧
    deleteEducation (addEducation [eduEx7] 5) ("edu" ++ toString 5) = [] ∧
    [eduEx7] ≠ ([] : List EducationEntry) := by
  refine ⟨by decide, by decide, by decide⟩

/-- Claim C7 (amended): provided the id assigned by `addEducation` (built
from the observed `Date.now()` value) does not already occur in the list,
adding an entry and then removing it by that id restores the list exactly;
and across any sequence of adds whose observed clock values are pairwise
distinct, the assigned ids are pairwise distinct. -/
theorem C7_education_roundtrip_amended :
    (∀ (data : List EducationEntry) (now : Nat),
      (∀ e ∈ data, e.id ≠ "edu" ++ toString now) →
      deleteEducation (addEducation data now) ("edu" ++ toString now) = data) ∧
    (∀ ts : List Nat, ts.Nodup →
      (ts.map (fun n => "edu" ++ toString n)).Nodup) := by
  constructor
  · intro data now hfresh
    unfold addEducation deleteEducation
    rw [List.filter_append]
    have h1 : data.filter (fun edu => edu.id ≠ "edu" ++ toString now) = data := by
      apply List.filter_eq_self.mpr
      intro e he
      simpa using hfresh e he
    rw [h1]
    simp
  · intro ts hts
    exact List.Nodup.map (fun a b hab => eduId_injective hab) hts

/-- Claim C7 witness: the amended round trip and distinctness at concrete
inputs. -/
theorem C7_witness :
    deleteEducation (addEducation [] 0) ("edu" ++ toString 0) = [] ∧
    (([1, 2].map (fun n => "edu" ++ toString n))).Nodup :=
  ⟨C7_education_roundtrip_amended.1 [] 0 (by simp),
   C7_education_roundtrip_amended.2 [1, 2] (by decide)⟩

/-! ## Claim C3: submit with an empty full name -/

/-- Claim C3: for every aggregate record with non-empty trimmed email,
complete education entries, complete unlinked experience entries, and at
least one selected repository or unlinked experience entry, but a
whitespace-only (or empty) full name, validation yields exactly the
`fullName` error, and submit replaces the error state with that set and
never invokes the submission callback. -/
theorem C3_submit_blocked_empty_fullname (data : ResumeData)
    (hname : jsTrim data.personalInfo.fullName = "")
    (hemail : jsTrim data.personalInfo.email ≠ "")
    (hedu : ∀ e ∈ data.education, e.institution ≠ "" ∧ e.degree ≠ "" ∧
      e.field ≠ "" ∧ e.startDate ≠ "" ∧ e.endDate ≠ "")
    (hexp : ∀ e ∈ data.experiences, optTruthy e.repoId = false →
      e.title ≠ "" ∧ e.organization ≠ "" ∧ e.startDate ≠ "" ∧ e.endDate ≠ "")
    (hcontent : data.selectedRepoIds ≠ [] ∨
      ∃ e ∈ data.experiences, optTruthy e.repoId = false) :
    validateFormData data = [(ErrKey.fullName, "Full name is required")] ∧
    ∀ prev, handleSubmit data prev =
      { errors := [(ErrKey.fullName, "Full name is required")],
        submitted := none } := by
  have he0 : data.personalInfo.email ≠ "" := by
    intro h
    apply hemail
    rw [h]
    rfl
  have hc1 : (!(strTruthy data.personalInfo.fullName) ||
      !(strTruthy (jsTrim data.personalInfo.fullName))) = true := by
    simp [strTruthy, hname]
  have hc3 : (data.education.any fun edu =>
      !(strTruthy edu.institution) || !(strTruthy edu.degree) ||
      !(strTruthy edu.field) || !(strTruthy edu.startDate) ||
      !(strTruthy edu.endDate)) = false := by
    rw [List.any_eq_false]
    intro e he
    obtain ⟨h1, h2, h3, h4, h5⟩ := hedu e he
    simp [strTruthy, h1, h2, h3, h4, h5]
  have hc4 : ((data.experiences.filter fun exp =>
      !(optTruthy exp.repoId)).any fun exp =>
      !(strTruthy exp.title) || !(strTruthy exp.organization) ||
      !(strTruthy exp.startDate) || !(strTruthy exp.endDate)) = false := by
    rw [List.any_eq_false]
    intro e he
    obtain ⟨he2, hcond⟩ := List.mem_filter.mp he
    have hrep : optTruthy e.repoId = false := by simpa using hcond
    obtain ⟨h1, h2, h3, h4⟩ := hexp e he2 hrep
    simp [strTruthy, h1, h2, h3, h4]
  have hc5 : (data.selectedRepoIds.length == 0 &&
      (data.experiences.filter fun exp =>
        !(optTruthy exp.repoId)).length == 0) = false := by
    rcases hcontent with hsel | ⟨e, he, hrep⟩
    · have hlen : data.selectedRepoIds.length ≠ 0 := by
        simpa [List.length_eq_zero] using hsel
      simp [hlen]
    · have hmem : e ∈ data.experiences.filter fun exp =>
          !(optTruthy exp.repoId) :=
        List.mem_filter.mpr ⟨he, by simp [hrep]⟩
      have hlen : (data.experiences.filter fun exp =>
          !(optTruthy exp.repoId)).length ≠ 0 := by
        intro h0
        rw [List.length_eq_zero] at h0
        rw [h0] at hmem
        simp at hmem
      simp [hlen]
  have hval : validateFormData data =
      [(ErrKey.fullName, "Full name is required")] := by
    simp only [validateFormData]
    rw [if_pos hc1, if_neg (by simp [strTruthy, he0, hemail]),
      if_neg (by simp [hc3]), if_neg (by simp [hc4]),
      if_neg (by simp [hc5])]
    simp
  refine ⟨hval, fun prev => ?_⟩
  simp only [handleSubmit, hval]
  rfl

def dataC3 : ResumeData :=
  { personalInfo :=
      { fullName := "   ", email := "a@b.c", phone := "", location := "",
        linkedin := "", github := "", website := "", profileImage := "",
        showContactIcons := true },
    education := [],
    experiences :=
      [{ id := "exp1", type := "work", title := "T", organization := "O",
         location := "", startDate := "2020-01", endDate := "2020-02",
         description := "", technologies := [], repoId := none,
         repoData := none }],
    selectedRepoIds := [] }

/-- Claim C3 witness: the blocked submit at a concrete record whose full
name is whitespace-only. -/
theorem C3_witness :
    validateFormData dataC3 = [(ErrKey.fullName, "Full name is required")] ∧
    handleSubmit dataC3 [] =
      { errors := [(ErrKey.fullName, "Full name is required")],
        submitted := none } := by
  have h := C3_submit_blocked_empty_fullname dataC3 (by decide) (by decide)
    (by simp [dataC3]) (by decide)
    (Or.inr ⟨dataC3.experiences.head (by decide), by decide, by decide⟩)
  exact ⟨h.1, h.2 []⟩

/-! ## Claim C4: the content-completeness error -/

def hasErrKey (m : List (ErrKey × String)) (k : ErrKey) : Bool :=
  m.any fun p => p.1 = k

theorem any_key_ite (c : Prop) [Decidable c] (k : ErrKey) (m : String)
    (k2 : ErrKey) (h : ¬ k = k2) :
    ((if c then [(k, m)] else []).any fun p => p.1 = k2) = false := by
  split <;> simp [h]

/-- Claim C4: whole-record validation records the content-completeness
error exactly when no external repository is selected and no experience
entry without a repository link exists; with zero selected repositories
and zero experience entries submission is blocked with that error, and
appending one experience entry without a repository link makes the error
absent on the next validation pass. -/
theorem C4_content_completeness :
    (∀ data : ResumeData,
      hasErrKey (validateFormData data) ErrKey.content = true ↔
        (data.selectedRepoIds = [] ∧
         data.experiences.filter (fun exp => !(optTruthy exp.repoId)) = [])) ∧
    (∀ data : ResumeData, data.selectedRepoIds = [] → data.experiences = [] →
      hasErrKey (validateFormData data) ErrKey.content = true ∧
      ∀ prev, (handleSubmit data prev).submitted = none) ∧
    (∀ (data : ResumeData) (e : ExperienceEntry), optTruthy e.repoId = false →
      hasErrKey (validateFormData
        { data with experiences := data.experiences ++ [e] })
        ErrKey.content = false) := by
  have hiff : ∀ data : ResumeData,
      hasErrKey (validateFormData data) ErrKey.content = true ↔
        (data.selectedRepoIds = [] ∧
         data.experiences.filter (fun exp => !(optTruthy exp.repoId)) = []) := by
    intro data
    simp only [validateFormData, hasErrKey, List.any_append]
    rw [any_key_ite _ _ _ _ (by decide : ¬ ErrKey.fullName = ErrKey.content),
      any_key_ite _ _ _ _ (by decide : ¬ ErrKey.email = ErrKey.content),
      any_key_ite _ _ _ _ (by decide : ¬ ErrKey.education = ErrKey.content),
      any_key_ite _ _ _ _ (by decide : ¬ ErrKey.experiences = ErrKey.content)]
    simp only [Bool.false_or]
    constructor
    · intro h
      split at h
      · rename_i hcond
        simp only [Bool.and_eq_true, beq_iff_eq, List.length_eq_zero] at hcond
        exact hcond
      · simp at h
    · intro ⟨h1, h2⟩
      rw [if_pos (by simp [h1, h2])]
      simp
  refine ⟨hiff, ?_, ?_⟩
  · intro data h1 h2
    have hkey : hasErrKey (validateFormData data) ErrKey.content = true :=
      (hiff data).mpr ⟨h1, by rw [h2]; rfl⟩
    refine ⟨hkey, fun prev => ?_⟩
    have hne : validateFormData data ≠ [] := by
      intro h0
      rw [hasErrKey, h0] at hkey
      simp at hkey
    simp only [handleSubmit]
    rw [if_pos (by simpa [List.length_pos] using hne)]
  · intro data e hrep
    cases hk : hasErrKey (validateFormData
        { data with experiences := data.experiences ++ [e] })
        ErrKey.content with
    | false => rfl
    | true =>
      obtain ⟨_, hfil⟩ := (hiff _).mp hk
      rw [List.filter_append] at hfil
      have h2 := (List.append_eq_nil.mp hfil).2
      have hmem : e ∈ List.filter (fun exp => !(optTruthy exp.repoId)) [e] := by
        simp [hrep]
      rw [h2] at hmem
      simp at hmem

def expC4 : ExperienceEntry :=
  { id := "exp9", type := "project", title := "", organization := "",
    location := "", startDate := "", endDate := "", description := "",
    technologies := [], repoId := none, repoData := none }

def dataC4 : ResumeData :=
  { personalInfo :=
      { fullName := "N", email := "a@b.c", phone := "", location := "",
        linkedin := "", github := "", website := "", profileImage := "",
        showContactIcons := true },
    education := [], experiences := [], selectedRepoIds := [] }

/-- Claim C4 witness: the content error at a concrete empty record, and its
absence after appending one unlinked experience entry. -/
theorem C4_witness :
    hasErrKey (validateFormData dataC4) ErrKey.content = true ∧
    (handleSubmit dataC4 []).submitted = none ∧
    hasErrKey (validateFormData
      { dataC4 with experiences := dataC4.experiences ++ [expC4] })
      ErrKey.content = false := by
  have h2 := C4_content_completeness.2.1 dataC4 rfl rfl
  have h3 := C4_content_completeness.2.2 dataC4 expC4 rfl
  exact ⟨h2.1, h2.2 [], h3⟩

/-! ## Claim C2: the persistence load path -/

/-- A concrete stand-in for `JSON.parse`: only the string `"good"` parses
(to `7`); every other input throws (`none`). -/
def demoParse (s : String) : Option Nat := if s = "good" then some 7 else none

/-- Claim C2 (counterexample): a corrupt (unparseable) session value does
not fall through to the durable tier.  With a corrupt session value and a
parseable durable value, the source returns the default template (`0`),
not the durable value (`7`): the `try`/`catch` wraps both reads, so the
parse exception skips the durable read entirely. -/
theorem C2_counterexample :
    demoParse "corrupt" = none ∧ demoParse "good" = some 7 ∧
    loadSavedFormData demoParse 0 (some "corrupt") (some "good") = 0 ∧
    (0 : Nat) ≠ 7 :=
  ⟨rfl, rfl, rfl, by decide⟩

/-- Claim C2 (amended): load attempts the session-scoped read first; a
present, parseable session value is returned; a parse failure of the
session value returns the built-in default template directly, skipping the
durable tier; only an absent (or empty) session value falls through to the
durable read, whose parse failure likewise yields the template; with both
tiers absent the template is returned. -/
theorem C2_load_amended {α : Type} (parseJSON : String → Option α)
    (mockT : α) (sess loc : Option String) :
    (∀ s v, sess = some s → s ≠ "" → parseJSON s = some v →
      loadSavedFormData parseJSON mockT sess loc = v) ∧
    (∀ s, sess = some s → s ≠ "" → parseJSON s = none →
      loadSavedFormData parseJSON mockT sess loc = mockT) ∧
    ((sess = none ∨ sess = some "") →
      (∀ s v, loc = some s → s ≠ "" → parseJSON s = some v →
        loadSavedFormData parseJSON mockT sess loc = v) ∧
      (∀ s, loc = some s → s ≠ "" → parseJSON s = none →
        loadSavedFormData parseJSON mockT sess loc = mockT) ∧
      ((loc = none ∨ loc = some "") →
        loadSavedFormData parseJSON mockT sess loc = mockT)) := by
  refine ⟨?_, ?_, ?_⟩
  · intro s v hs hne hp
    subst hs
    simp [loadSavedFormData, hne, hp]
  · intro s hs hne hp
    subst hs
    simp [loadSavedFormData, hne, hp]
  · intro hsess
    have hloc : ∀ m,
        loadSavedFormData parseJSON mockT sess m =
          loadSavedFormData parseJSON mockT none m := by
      intro m
      rcases hsess with rfl | rfl
      · rfl
      · simp [loadSavedFormData]
    refine ⟨?_, ?_, ?_⟩
    · intro s v hl hne hp
      subst hl
      rw [hloc]
      simp [loadSavedFormData, hne, hp]
    · intro s hl hne hp
      subst hl
      rw [hloc]
      simp [loadSavedFormData, hne, hp]
    · intro hlocn
      rw [hloc]
      rcases hlocn with rfl | rfl
      · rfl
      · simp [loadSavedFormData]

/-- Claim C2 witness: the amended tier order at concrete stores. -/
theorem C2_witness :
    loadSavedFormData demoParse 0 (some "good") none = 7 ∧
    loadSavedFormData demoParse 0 none (some "good") = 7 :=
  ⟨(C2_load_amended demoParse 0 (some "good") none).1 "good" 7 rfl
      (by decide) rfl,
   ((C2_load_amended demoParse 0 none (some "good")).2.2 (Or.inl rfl)).1
      "good" 7 rfl (by decide) rfl⟩

end ResumeGen
